import Mathlib

/-!
Verification of the `json-tools` conversion engine against its specification.

The development shallowly embeds the hierarchical value model and the
format codecs of `src/json_tools/converters.py` and
`src/json_tools/json_ops.py`:

* `JValue` is the hierarchical value model (scalar text / ordered field map /
  ordered sequence).  Python `dict`s are modelled as association lists in
  insertion order; the key-uniqueness invariant of a `dict` appears as an
  explicit `Nodup` hypothesis where a proof needs it.
* The markup (XML) codec is modelled at the element-tree level (`Elem`): the
  textual serializer/parser pair (`xml.etree.ElementTree.tostring` /
  `fromstring` plus `minidom.toprettyxml`) is Python standard library code,
  an external collaborator per the specification; on well-formed trees it
  preserves exactly the tag, the (whitespace-trimmed, for leaves) text and
  the child list, which is the data `_element_to_data` consumes.
* The tabular (CSV) codec is modelled at the record level
  (`List (List String)`), the `csv` module's quoting being the assumed-correct
  external row reader/writer; `csv.DictReader` is modelled for records whose
  data rows have exactly the header's length (other shapes involve Python
  `None` keys/values outside the string model).
* The differ is modelled with `difflib.unified_diff` as an abstract function
  parameter; the only fact used about it is its documented contract that
  identical inputs produce an empty diff.
-/

/-- The hierarchical value model: the JSON-like data produced and consumed by
`converters.py` (`str` scalars, `dict` field maps, `list` sequences). -/
inductive JValue where
  | Scalar (s : String)
  | Fields (entries : List (String × JValue))
  | Sequence (items : List JValue)
deriving Repr

/-- An XML element as built by `xml.etree.ElementTree`: a tag, text content
(`""` standing for Python `None`), and a list of children. -/
inductive Elem where
  | mk (tag : String) (text : String) (children : List Elem)
deriving Repr

def Elem.tag : Elem → String
  | .mk t _ _ => t

def Elem.text : Elem → String
  | .mk _ s _ => s

def Elem.children : Elem → List Elem
  | .mk _ _ c => c

/-- Python `str.strip()` on a character list: drop leading and trailing
whitespace. -/
def stripChars (cs : List Char) : List Char :=
  ((cs.dropWhile Char.isWhitespace).reverse.dropWhile Char.isWhitespace).reverse

/-- Python `str.strip()` (modelled over `Char.isWhitespace`). -/
def pyStrip (s : String) : String :=
  ⟨stripChars s.data⟩

mutual

/-- Embeds `_populate_xml` (converters.py lines 254-269): fill the element
named `tag` with `value`.  A `Fields` value emits one child per entry (one
child per item for a list-valued entry, each named by the key); a `Sequence`
met directly as content emits one child per item named by the element's own
tag; a `Scalar` becomes the element's text. -/
def populate_xml (tag : String) : JValue → Elem
  | .Scalar s => .mk tag s []
  | .Fields es => .mk tag "" (populate_entries es)
  | .Sequence items => .mk tag "" (populate_items tag items)
termination_by v => sizeOf v
decreasing_by all_goals (simp_wf; try omega)

/-- The children emitted for the entries of a `Fields` value
(the `isinstance(value, dict)` branch of `_populate_xml`). -/
def populate_entries : List (String × JValue) → List Elem
  | [] => []
  | (k, .Scalar s) :: rest => populate_xml k (.Scalar s) :: populate_entries rest
  | (k, .Fields fs) :: rest => populate_xml k (.Fields fs) :: populate_entries rest
  | (k, .Sequence items) :: rest => populate_items k items ++ populate_entries rest
termination_by es => sizeOf es
decreasing_by all_goals (simp_wf; try omega)

/-- The children emitted for the items of a list, all named `tag`. -/
def populate_items (tag : String) : List JValue → List Elem
  | [] => []
  | v :: rest => populate_xml tag v :: populate_items tag rest
termination_by l => sizeOf l
decreasing_by all_goals (simp_wf; try omega)

end

/-- Embeds `_dict_to_xml_string` up to the textual serializer: a payload with
exactly one root entry becomes an element tree, anything else is the
`ValueError("XML conversion expects a single root element.")`. -/
def dict_to_xml : JValue → Option Elem
  | .Fields [(name, v)] => some (populate_xml name v)
  | _ => none

/-- Embeds the duplicate-tag merge of `_element_to_data` (lines 286-293):
insert `v` under `tag` into the accumulated entries; a repeated tag promotes
the existing value to a two-element list, or appends when it already is a
list.  The in-place `dict` update keeps the key's original position. -/
def merge_child : List (String × JValue) → String → JValue → List (String × JValue)
  | [], tag, v => [(tag, v)]
  | (k, old) :: rest, tag, v =>
      if k = tag then
        match old with
        | .Sequence xs => (k, .Sequence (xs ++ [v])) :: rest
        | _ => (k, .Sequence [old, v]) :: rest
      else (k, old) :: merge_child rest tag v

mutual

/-- Embeds `_element_to_data` (converters.py lines 277-294): a leaf decodes to
its stripped text, an element with children decodes to a `Fields` built by
folding the children in document order through the merge rule. -/
def element_to_data : Elem → JValue
  | .mk _ text [] => .Scalar (pyStrip text)
  | .mk _ _ (c :: cs) => .Fields (fold_children [] (c :: cs))
termination_by e => sizeOf e
decreasing_by all_goals (simp_wf; try omega)

/-- The `for child in children` loop of `_element_to_data`. -/
def fold_children (acc : List (String × JValue)) : List Elem → List (String × JValue)
  | [] => acc
  | c :: rest => fold_children (merge_child acc c.tag (element_to_data c)) rest
termination_by l => sizeOf l
decreasing_by all_goals (simp_wf; try omega)

end

/-- Embeds `_xml_to_dict` (lines 272-274): the whole document decodes to a
single-entry `Fields` keyed by the root tag. -/
def xml_to_dict (root : Elem) : JValue :=
  .Fields [(root.tag, element_to_data root)]

/-- Embeds the copy pipeline `convert_xml_to_xml` (converters.py lines
138-143): the input text is read and written back unchanged; file I/O is
abstracted to the payload string. -/
def convert_xml_to_xml (payload : String) : String :=
  payload

/-- Is the value a Python `dict` (`isinstance(item, dict)`)? -/
def isDict : JValue → Bool
  | .Fields _ => true
  | _ => false

/-- Embeds `_ensure_list_of_dicts` (converters.py lines 221-228): the loop
collects exactly the items when every item is a `dict` (returning `None` the
moment a non-`dict` item is seen), and `rows if rows else None` turns an
empty collection into `None`. -/
def ensure_list_of_dicts (value : List JValue) : Option (List JValue) :=
  if value.all isDict then
    if value.isEmpty then none else some value
  else none

/-- The association-list reading of Python `current.get(part)`. -/
def lookupKey : List (String × JValue) → String → Option JValue
  | [], _ => none
  | (k, v) :: rest, key => if k = key then some v else lookupKey rest key

/-- The lookup loop of `_follow_row_path` (lines 191-198): walk the parts of
the dotted path through `dict` lookups; a missing key or a non-`dict`
intermediate stops the walk with `None`. -/
def walk_path : JValue → List String → Option JValue
  | current, [] => some current
  | .Fields es, part :: rest =>
      match lookupKey es part with
      | some next => walk_path next rest
      | none => none
  | _, _ :: _ => none

/-- Python `str.split(".")` on a character list: split at every dot, keeping
empty pieces (so the empty input gives one empty piece). -/
def splitDotChars : List Char → List (List Char)
  | [] => [[]]
  | c :: rest =>
      if c = '.' then [] :: splitDotChars rest
      else
        match splitDotChars rest with
        | [] => [[c]]
        | w :: ws => (c :: w) :: ws

/-- Python `dotted_path.split(".")`. -/
def pySplitDot (s : String) : List String :=
  (splitDotChars s.data).map (fun cs => String.mk cs)

/-- Embeds `_follow_row_path` (converters.py lines 190-207): resolve the
dotted path, then validate a `list` terminal with `_ensure_list_of_dicts`,
wrap a single `dict` terminal as a one-row list, and fail on anything else. -/
def follow_row_path (data : JValue) (dotted_path : String) : Option (List JValue) :=
  match walk_path data (pySplitDot dotted_path) with
  | some (.Sequence items) => ensure_list_of_dicts items
  | some (.Fields es) => ensure_list_of_dicts [.Fields es]
  | some (.Scalar _) => none
  | none => none

mutual

/-- Embeds `_find_first_row_list` (converters.py lines 210-218): a `list` is
validated on the spot (its elements are never entered), a `dict` is searched
value by value in insertion order, anything else yields `None`. -/
def find_first_row_list : JValue → Option (List JValue)
  | .Sequence items => ensure_list_of_dicts items
  | .Fields es => find_in_entries es
  | .Scalar _ => none
termination_by v => sizeOf v
decreasing_by all_goals (simp_wf; try omega)

/-- The `for value in obj.values()` loop of `_find_first_row_list`: return
the first non-`None` recursive result. -/
def find_in_entries : List (String × JValue) → Option (List JValue)
  | [] => none
  | (_, v) :: rest =>
      match find_first_row_list v with
      | some rows => some rows
      | none => find_in_entries rest
termination_by es => sizeOf es
decreasing_by all_goals (simp_wf; try omega)

end

/-- The single error message `convert_xml_to_csv` raises (lines 112-115) when
row location fails, whatever the cause. -/
def unableToLocateMsg : String :=
  "Unable to locate a list of row objects inside the XML. Provide --row-element when invoking the CLI to point to the list."

/-- The row-location step of `convert_xml_to_csv` (lines 105-109): Python's
`if row_path:` treats both `None` and the empty string as absent. -/
def locate_rows (data : JValue) (row_path : Option String) : Option (List JValue) :=
  match row_path with
  | some p => if p = "" then find_first_row_list data else follow_row_path data p
  | none => find_first_row_list data

/-- The locate-and-validate phase of `convert_xml_to_csv` (converters.py
lines 105-115): locate the rows and raise the single `ValueError` when
nothing was found; normalisation and CSV writing are downstream of this
result and consume it row by row. -/
def convert_xml_to_csv_locate (data : JValue) (row_path : Option String) :
    Except String (List JValue) :=
  match locate_rows data row_path with
  | some rows => .ok rows
  | none => .error unableToLocateMsg

mutual

/-- The pruned depth-first pre-order enumeration implicit in
`_find_first_row_list`: every `list` value reachable through `dict` values
only, in visiting order (a `list` is inspected but never entered, a scalar
is passed over). -/
def preorderSeqs : JValue → List (List JValue)
  | .Scalar _ => []
  | .Sequence items => [items]
  | .Fields es => preorderSeqsEntries es
termination_by v => sizeOf v
decreasing_by all_goals (simp_wf; try omega)

/-- `preorderSeqs` over the values of a `dict`, in insertion order. -/
def preorderSeqsEntries : List (String × JValue) → List (List JValue)
  | [] => []
  | (_, v) :: rest => preorderSeqs v ++ preorderSeqsEntries rest
termination_by es => sizeOf es
decreasing_by all_goals (simp_wf; try omega)

end

/-- Embeds `csv.DictReader` as used by `_read_csv_rows` (lines 146-156): the
first record is the header, every following record becomes a `dict` pairing
the header names with the record's fields in order (modelled for records of
the header's length). -/
def read_csv_rows (records : List (List String)) : List (List (String × String)) :=
  match records with
  | [] => []
  | header :: data => data.map (fun row => header.zip row)

/-- The association-list reading of Python `row.get(key, "")` over string
values. -/
def lookupStr : List (String × String) → String → Option String
  | [], _ => none
  | (k, v) :: rest, key => if k = key then some v else lookupStr rest key

/-- Embeds `_collect_fieldnames` (converters.py lines 168-174): walk the rows
and their keys in order, appending each key the first time it is seen. -/
def collect_fieldnames (rows : List (List (String × String))) : List String :=
  rows.foldl (fun acc row => row.foldl (fun a kv => if kv.1 ∈ a then a else a ++ [kv.1]) acc) []

/-- Embeds `_write_csv` (converters.py lines 159-165) at the record level:
a header of the collected field names, then one record per row with `""` for
a field the row lacks. -/
def write_csv (rows : List (List (String × String))) : List (List String) :=
  collect_fieldnames rows ::
    rows.map (fun row => (collect_fieldnames rows).map (fun key => (lookupStr row key).getD ""))

/-- Modelled from the spec's words for the tabular header: the key stream
"deduplicated and ordered by first-seen position" (spec section 3); kept
deliberately different in shape from `collect_fieldnames` so their equality
is a statement about the code. -/
def firstSeen : List String → List String
  | [] => []
  | k :: rest => k :: (firstSeen rest).filter (fun x => x ≠ k)

/-- The one "no differences" line `compare_json_files` emits for an
identical pair (json_ops.py line 49). -/
def noDiffLine (a b : String) : String :=
  "No differences detected between " ++ a ++ " and " ++ b ++ "."

/-- The body of the comparison loop of `compare_json_files` (json_ops.py
lines 41-49) for one adjacent pair: extend with the unified diff when it is
non-empty, otherwise append the single "no differences" line.  `udiff`
stands for `difflib.unified_diff` on the rendered line lists, an external
collaborator. -/
def compare_pair (udiff : List String → List String → List String)
    (na nb : String) (ra rb : List String) : List String :=
  let dl := udiff ra rb
  if dl.isEmpty then [noDiffLine na nb] else dl

/-- The pairwise chain of `compare_json_files` (lines 37-49): file 1 vs 2,
file 2 vs 3, and so on; each file carries its name and its canonicalized
rendered lines. -/
def compare_chain (udiff : List String → List String → List String) :
    List (String × List String) → List String
  | [] => []
  | [_] => []
  | a :: b :: rest => compare_pair udiff a.1 b.1 a.2 b.2 ++ compare_chain udiff (b :: rest)

/-- Embeds `compare_json_files` (json_ops.py lines 27-50): fewer than two
files is the `ValueError`, otherwise the concatenated pairwise diffs.
Reading and rendering (`json.dumps` with sorted keys) are upstream; each
input carries its name and rendered lines. -/
def compare_json_files (udiff : List String → List String → List String)
    (files : List (String × List String)) : Except String (List String) :=
  if files.length < 2 then
    .error "At least two files are required to run a comparison."
  else
    .ok (compare_chain udiff files)

mutual

/-- The claim's literal precondition: every `Sequence` anywhere in the value
has at least two items. -/
def seqLenOK : JValue → Bool
  | .Scalar _ => true
  | .Fields es => seqLenOKEntries es
  | .Sequence items => decide (2 ≤ items.length) && seqLenOKItems items
termination_by v => sizeOf v
decreasing_by all_goals (simp_wf; try omega)

/-- `seqLenOK` over the values of a `dict`. -/
def seqLenOKEntries : List (String × JValue) → Bool
  | [] => true
  | (_, v) :: rest => seqLenOK v && seqLenOKEntries rest
termination_by es => sizeOf es
decreasing_by all_goals (simp_wf; try omega)

/-- `seqLenOK` over the items of a `list`. -/
def seqLenOKItems : List JValue → Bool
  | [] => true
  | v :: rest => seqLenOK v && seqLenOKItems rest
termination_by l => sizeOf l
decreasing_by all_goals (simp_wf; try omega)

end

mutual

/-- Element content the markup codec round-trips: a scalar invariant under
stripping, or a non-empty field map with distinct keys whose entry values are
round-trippable; a sequence met directly as content is never recovered (the
self-repetition encoding decodes to a nested field map). -/
def goodContent : JValue → Bool
  | .Scalar s => pyStrip s == s
  | .Fields es => !es.isEmpty && decide (es.map Prod.fst).Nodup && goodEntries es
  | .Sequence _ => false
termination_by v => sizeOf v
decreasing_by all_goals (simp_wf; try omega)

/-- Entry values the markup codec round-trips: round-trippable content, or a
sequence of at least two round-trippable contents (one child element per
item shares the entry's tag, and at least two occurrences are needed for the
decoder to rebuild a list). -/
def goodEntries : List (String × JValue) → Bool
  | [] => true
  | (_, .Scalar s) :: rest => (pyStrip s == s) && goodEntries rest
  | (_, .Fields fs) :: rest => goodContent (.Fields fs) && goodEntries rest
  | (_, .Sequence items) :: rest =>
      decide (2 ≤ items.length) && goodItems items && goodEntries rest
termination_by es => sizeOf es
decreasing_by all_goals (simp_wf; try omega)

/-- `goodContent` over the items of a list-valued entry. -/
def goodItems : List JValue → Bool
  | [] => true
  | v :: rest => goodContent v && goodItems rest
termination_by l => sizeOf l
decreasing_by all_goals (simp_wf; try omega)

end

mutual

/-- The decode invariant of claim C2: every `Fields` value inside has
pairwise-distinct keys. -/
def decodedKeysOK : JValue → Bool
  | .Scalar _ => true
  | .Fields es => decide (es.map Prod.fst).Nodup && entriesKeysOK es
  | .Sequence items => itemsKeysOK items
termination_by v => sizeOf v
decreasing_by all_goals (simp_wf; try omega)

/-- `decodedKeysOK` over the values of a field map. -/
def entriesKeysOK : List (String × JValue) → Bool
  | [] => true
  | (_, v) :: rest => decodedKeysOK v && entriesKeysOK rest
termination_by es => sizeOf es
decreasing_by all_goals (simp_wf; try omega)

/-- `decodedKeysOK` over the items of a sequence. -/
def itemsKeysOK : List JValue → Bool
  | [] => true
  | v :: rest => decodedKeysOK v && itemsKeysOK rest
termination_by l => sizeOf l
decreasing_by all_goals (simp_wf; try omega)

end

/-! ### Helper lemmas about the markup codec -/

theorem populate_xml_tag (tag : String) (v : JValue) : (populate_xml tag v).tag = tag := by
  cases v <;> simp [populate_xml, Elem.tag]

theorem populate_items_eq_map (tag : String) (items : List JValue) :
    populate_items tag items = items.map (populate_xml tag) := by
  induction items with
  | nil => simp [populate_items]
  | cons v rest ih => simp [populate_items, ih]

theorem merge_child_not_mem (acc : List (String × JValue)) (tag : String) (v : JValue)
    (h : tag ∉ acc.map Prod.fst) : merge_child acc tag v = acc ++ [(tag, v)] := by
  induction acc with
  | nil => simp [merge_child]
  | cons kv rest ih =>
      obtain ⟨k, old⟩ := kv
      simp only [List.map_cons, List.mem_cons] at h
      push_neg at h
      simp [merge_child, Ne.symm h.1, ih h.2]

theorem merge_child_promote (pre post : List (String × JValue)) (tag : String)
    (old v : JValue) (hpre : tag ∉ pre.map Prod.fst) (hold : ∀ xs, old ≠ .Sequence xs) :
    merge_child (pre ++ (tag, old) :: post) tag v =
      pre ++ (tag, .Sequence [old, v]) :: post := by
  induction pre with
  | nil =>
      cases old with
      | Scalar s => simp [merge_child]
      | Fields es => simp [merge_child]
      | Sequence xs => exact absurd rfl (hold xs)
  | cons kv rest ih =>
      obtain ⟨k, w⟩ := kv
      simp only [List.map_cons, List.mem_cons] at hpre
      push_neg at hpre
      simp [merge_child, Ne.symm hpre.1, ih hpre.2]

theorem merge_child_append_seq (pre post : List (String × JValue)) (tag : String)
    (xs : List JValue) (v : JValue) (hpre : tag ∉ pre.map Prod.fst) :
    merge_child (pre ++ (tag, .Sequence xs) :: post) tag v =
      pre ++ (tag, .Sequence (xs ++ [v])) :: post := by
  induction pre with
  | nil => simp [merge_child]
  | cons kv rest ih =>
      obtain ⟨k, w⟩ := kv
      simp only [List.map_cons, List.mem_cons] at hpre
      push_neg at hpre
      simp [merge_child, Ne.symm hpre.1, ih hpre.2]

theorem fold_children_append (acc : List (String × JValue)) (xs ys : List Elem) :
    fold_children acc (xs ++ ys) = fold_children (fold_children acc xs) ys := by
  induction xs generalizing acc with
  | nil => simp [fold_children]
  | cons c rest ih => simp [fold_children, ih]

theorem goodContent_ne_sequence {v : JValue} (h : goodContent v = true) :
    ∀ xs, v ≠ .Sequence xs := by
  intro xs hv
  subst hv
  simp [goodContent] at h

theorem populate_entries_ne_nil (es : List (String × JValue))
    (hg : goodEntries es = true) (hne : es ≠ []) : populate_entries es ≠ [] := by
  match es with
  | [] => exact absurd rfl hne
  | (k, .Scalar s) :: rest => simp [populate_entries]
  | (k, .Fields fs) :: rest => simp [populate_entries]
  | (k, .Sequence items) :: rest =>
      simp only [goodEntries, Bool.and_eq_true, decide_eq_true_eq] at hg
      obtain ⟨⟨hlen, _⟩, _⟩ := hg
      match items with
      | [] => simp at hlen
      | x :: xs => simp [populate_entries, populate_items]

mutual

theorem decode_populate : (c : JValue) → goodContent c = true → (tag : String) →
    element_to_data (populate_xml tag c) = c
  | .Scalar s, h, tag => by
      simp only [goodContent, beq_iff_eq] at h
      simp [populate_xml, element_to_data, h]
  | .Fields es, h, tag => by
      simp only [goodContent, Bool.and_eq_true, decide_eq_true_eq, Bool.not_eq_true',
        List.isEmpty_eq_false] at h
      obtain ⟨⟨hne, hnodup⟩, hge⟩ := h
      have hpe := populate_entries_ne_nil es hge hne
      rw [show populate_xml tag (.Fields es) = .mk tag "" (populate_entries es) from by
        simp [populate_xml]]
      obtain ⟨c, cs, hcs⟩ : ∃ c cs, populate_entries es = c :: cs := by
        cases hpe' : populate_entries es with
        | nil => exact absurd hpe' hpe
        | cons c cs => exact ⟨c, cs, rfl⟩
      rw [hcs]
      rw [show element_to_data (.mk tag "" (c :: cs)) = .Fields (fold_children [] (c :: cs))
        from by simp [element_to_data]]
      rw [← hcs]
      rw [decode_entries es [] hge hnodup (by simp)]
      simp
  | .Sequence items, h, _ => by
      simp [goodContent] at h
termination_by c _ _ => sizeOf c
decreasing_by all_goals (simp_wf; try omega)

theorem decode_entries : (es : List (String × JValue)) → (acc : List (String × JValue)) →
    goodEntries es = true → (es.map Prod.fst).Nodup →
    (∀ k ∈ es.map Prod.fst, k ∉ acc.map Prod.fst) →
    fold_children acc (populate_entries es) = acc ++ es
  | [], acc, _, _, _ => by simp [populate_entries, fold_children]
  | (k, .Scalar s) :: rest, acc, hg, hn, hd => by
      simp only [goodEntries, Bool.and_eq_true, beq_iff_eq] at hg
      obtain ⟨hs, hrest⟩ := hg
      simp only [List.map_cons, List.nodup_cons] at hn
      obtain ⟨hkn, hrn⟩ := hn
      have hk : k ∉ acc.map Prod.fst := hd k (by simp)
      have hd' : ∀ k' ∈ rest.map Prod.fst, k' ∉ (acc ++ [(k, JValue.Scalar s)]).map Prod.fst := by
        intro k' hk'
        simp only [List.map_append, List.map_cons, List.map_nil, List.mem_append,
          List.mem_singleton, not_or]
        exact ⟨hd k' (by simp [hk']), fun h => hkn (h ▸ hk')⟩
      have step : fold_children acc (populate_entries ((k, JValue.Scalar s) :: rest))
          = fold_children (acc ++ [(k, JValue.Scalar s)]) (populate_entries rest) := by
        rw [show populate_entries ((k, JValue.Scalar s) :: rest)
            = populate_xml k (.Scalar s) :: populate_entries rest from by simp [populate_entries]]
        rw [show populate_xml k (JValue.Scalar s) = Elem.mk k s [] from by simp [populate_xml]]
        rw [show fold_children acc (Elem.mk k s [] :: populate_entries rest)
            = fold_children (merge_child acc k (element_to_data (Elem.mk k s []))) (populate_entries rest)
          from by simp [fold_children, Elem.tag]]
        rw [show element_to_data (Elem.mk k s []) = .Scalar (pyStrip s) from by simp [element_to_data]]
        rw [hs, merge_child_not_mem acc k (.Scalar s) hk]
      rw [step, decode_entries rest (acc ++ [(k, JValue.Scalar s)]) hrest hrn hd']
      simp
  | (k, .Fields fs) :: rest, acc, hg, hn, hd => by
      simp only [goodEntries, Bool.and_eq_true] at hg
      obtain ⟨hf, hrest⟩ := hg
      simp only [List.map_cons, List.nodup_cons] at hn
      obtain ⟨hkn, hrn⟩ := hn
      have hk : k ∉ acc.map Prod.fst := hd k (by simp)
      have hd' : ∀ k' ∈ rest.map Prod.fst, k' ∉ (acc ++ [(k, JValue.Fields fs)]).map Prod.fst := by
        intro k' hk'
        simp only [List.map_append, List.map_cons, List.map_nil, List.mem_append,
          List.mem_singleton, not_or]
        exact ⟨hd k' (by simp [hk']), fun h => hkn (h ▸ hk')⟩
      have step : fold_children acc (populate_entries ((k, JValue.Fields fs) :: rest))
          = fold_children (acc ++ [(k, JValue.Fields fs)]) (populate_entries rest) := by
        rw [show populate_entries ((k, JValue.Fields fs) :: rest)
            = populate_xml k (.Fields fs) :: populate_entries rest from by simp [populate_entries]]
        rw [show fold_children acc (populate_xml k (.Fields fs) :: populate_entries rest)
            = fold_children (merge_child acc (populate_xml k (.Fields fs)).tag
                (element_to_data (populate_xml k (.Fields fs)))) (populate_entries rest)
          from by simp [fold_children]]
        rw [populate_xml_tag, decode_populate (.Fields fs) hf k,
          merge_child_not_mem acc k (.Fields fs) hk]
      rw [step, decode_entries rest (acc ++ [(k, JValue.Fields fs)]) hrest hrn hd']
      simp
  | (k, .Sequence []) :: rest, acc, hg, hn, hd => by
      simp [goodEntries] at hg
  | (k, .Sequence [x]) :: rest, acc, hg, hn, hd => by
      simp [goodEntries] at hg
  | (k, .Sequence (x :: y :: tl)) :: rest, acc, hg, hn, hd => by
      simp only [goodEntries, Bool.and_eq_true, decide_eq_true_eq] at hg
      obtain ⟨⟨hlen, hitems⟩, hrest⟩ := hg
      simp only [List.map_cons, List.nodup_cons] at hn
      obtain ⟨hkn, hrn⟩ := hn
      have hk : k ∉ acc.map Prod.fst := hd k (by simp)
      have hd' : ∀ k' ∈ rest.map Prod.fst,
          k' ∉ (acc ++ [(k, JValue.Sequence (x :: y :: tl))]).map Prod.fst := by
        intro k' hk'
        simp only [List.map_append, List.map_cons, List.map_nil, List.mem_append,
          List.mem_singleton, not_or]
        exact ⟨hd k' (by simp [hk']), fun h => hkn (h ▸ hk')⟩
      simp only [goodItems, Bool.and_eq_true] at hitems
      obtain ⟨hx, hy, htl⟩ := hitems
      have hxv := decode_populate x hx k
      have hyv := decode_populate y hy k
      have step : fold_children acc (populate_entries ((k, JValue.Sequence (x :: y :: tl)) :: rest))
          = fold_children (acc ++ [(k, JValue.Sequence (x :: y :: tl))]) (populate_entries rest) := by
        rw [show populate_entries ((k, JValue.Sequence (x :: y :: tl)) :: rest)
            = populate_items k (x :: y :: tl) ++ populate_entries rest from by
          simp [populate_entries]]
        rw [fold_children_append]
        rw [show populate_items k (x :: y :: tl)
            = populate_xml k x :: populate_xml k y :: populate_items k tl from by
          simp [populate_items]]
        rw [show fold_children acc
              (populate_xml k x :: populate_xml k y :: populate_items k tl)
            = fold_children (merge_child acc (populate_xml k x).tag
                (element_to_data (populate_xml k x)))
              (populate_xml k y :: populate_items k tl) from by simp [fold_children]]
        rw [populate_xml_tag, hxv, merge_child_not_mem acc k x hk]
        rw [show fold_children (acc ++ [(k, x)]) (populate_xml k y :: populate_items k tl)
            = fold_children (merge_child (acc ++ [(k, x)]) (populate_xml k y).tag
                (element_to_data (populate_xml k y))) (populate_items k tl) from by
          simp [fold_children]]
        rw [populate_xml_tag, hyv,
          merge_child_promote acc [] k x y hk (goodContent_ne_sequence hx)]
        rw [decode_items tl k acc [x, y] htl hk]
        simp
      rw [step, decode_entries rest (acc ++ [(k, JValue.Sequence (x :: y :: tl))]) hrest hrn hd']
      simp
termination_by es _ _ _ _ => sizeOf es
decreasing_by all_goals (simp_wf; try omega)

theorem decode_items : (xs : List JValue) → (tag : String) →
    (acc : List (String × JValue)) → (cur : List JValue) →
    goodItems xs = true → tag ∉ acc.map Prod.fst →
    fold_children (acc ++ [(tag, .Sequence cur)]) (populate_items tag xs) =
      acc ++ [(tag, .Sequence (cur ++ xs))]
  | [], tag, acc, cur, _, _ => by simp [populate_items, fold_children]
  | x :: rest, tag, acc, cur, hg, ha => by
      simp only [goodItems, Bool.and_eq_true] at hg
      obtain ⟨hx, hrest⟩ := hg
      have hxv := decode_populate x hx tag
      rw [show populate_items tag (x :: rest)
          = populate_xml tag x :: populate_items tag rest from by simp [populate_items]]
      rw [show fold_children (acc ++ [(tag, JValue.Sequence cur)])
            (populate_xml tag x :: populate_items tag rest)
          = fold_children (merge_child (acc ++ [(tag, JValue.Sequence cur)])
              (populate_xml tag x).tag (element_to_data (populate_xml tag x)))
            (populate_items tag rest) from by simp [fold_children]]
      rw [populate_xml_tag, hxv, merge_child_append_seq acc [] tag cur x ha]
      rw [decode_items rest tag acc (cur ++ [x]) hrest ha]
      simp
termination_by xs _ _ _ _ _ => sizeOf xs
decreasing_by all_goals (simp_wf; try omega)

end

/-- Claim C1 counterexample: the value `{"root": {}}` contains no `Sequence`
at all, so it satisfies the claim's precondition (every `Sequence` has length
at least 2), yet the markup codec does not round-trip it: an empty field map
encodes to a childless element, which decodes back to the empty scalar. -/
theorem markup_round_trip_cex :
    seqLenOK (.Fields [("root", .Fields [])]) = true ∧
    (dict_to_xml (.Fields [("root", .Fields [])])).map xml_to_dict ≠
      some (.Fields [("root", .Fields [])]) := by
  constructor
  · simp [seqLenOK, seqLenOKEntries]
  · simp [dict_to_xml, populate_xml, populate_entries, xml_to_dict, element_to_data,
      Elem.tag, pyStrip, stripChars]

/-- Claim C1 (amended): the markup codec round-trips every single-root value
whose content is `goodContent`: scalars invariant under whitespace stripping,
non-empty field maps with distinct keys, and sequences of length at least 2
that occur only as the value of a field entry (not as root content and not
directly inside another sequence).  The original claim, which only excludes
length-1 sequences, fails on empty field maps, on strip-sensitive scalars and
on directly nested sequences. -/
theorem markup_round_trip_good (root : String) (c : JValue) (h : goodContent c = true) :
    (dict_to_xml (.Fields [(root, c)])).map xml_to_dict = some (.Fields [(root, c)]) := by
  rw [show dict_to_xml (.Fields [(root, c)]) = some (populate_xml root c) from by
    simp [dict_to_xml]]
  simp [xml_to_dict, populate_xml_tag, decode_populate c h root]

/-- Witness for `markup_round_trip_good` at the value
`{"rows": {"row": ["x", "y"]}}`. -/
theorem markup_round_trip_good_witness :
    goodContent (.Fields [("row", .Sequence [.Scalar "x", .Scalar "y"])]) = true ∧
    (dict_to_xml (.Fields [("rows", .Fields [("row", .Sequence [.Scalar "x", .Scalar "y"])])])).map
        xml_to_dict =
      some (.Fields [("rows", .Fields [("row", .Sequence [.Scalar "x", .Scalar "y"])])]) := by
  have hgood : goodContent (.Fields [("row", .Sequence [.Scalar "x", .Scalar "y"])]) = true := by
    simp [goodContent, goodEntries, goodItems, pyStrip, stripChars]
  exact ⟨hgood, markup_round_trip_good "rows" _ hgood⟩

theorem itemsKeysOK_append (xs : List JValue) (v : JValue) :
    itemsKeysOK (xs ++ [v]) = (itemsKeysOK xs && decodedKeysOK v) := by
  induction xs with
  | nil => simp [itemsKeysOK]
  | cons x rest ih => simp [itemsKeysOK, ih, Bool.and_assoc]

theorem merge_child_map_fst (acc : List (String × JValue)) (tag : String) (v : JValue) :
    (merge_child acc tag v).map Prod.fst =
      if tag ∈ acc.map Prod.fst then acc.map Prod.fst else acc.map Prod.fst ++ [tag] := by
  induction acc with
  | nil => simp [merge_child]
  | cons kv rest ih =>
      obtain ⟨k, old⟩ := kv
      by_cases hk : k = tag
      · subst hk
        cases old <;> simp [merge_child]
      · simp only [merge_child, if_neg hk, List.map_cons, ih]
        have : (tag ∈ List.map Prod.fst ((k, old) :: rest)) ↔ tag ∈ List.map Prod.fst rest := by
          simp [Ne.symm hk]
        by_cases ht : tag ∈ List.map Prod.fst rest <;> simp [ht, Ne.symm hk]

theorem merge_child_nodup (acc : List (String × JValue)) (tag : String) (v : JValue)
    (h : (acc.map Prod.fst).Nodup) : ((merge_child acc tag v).map Prod.fst).Nodup := by
  rw [merge_child_map_fst]
  split_ifs with htag
  · exact h
  · simp [List.nodup_append, h, htag]

theorem merge_child_entriesKeysOK (acc : List (String × JValue)) (tag : String) (v : JValue)
    (ha : entriesKeysOK acc = true) (hv : decodedKeysOK v = true) :
    entriesKeysOK (merge_child acc tag v) = true := by
  induction acc with
  | nil => simp [merge_child, entriesKeysOK, hv]
  | cons kv rest ih =>
      obtain ⟨k, old⟩ := kv
      simp only [entriesKeysOK, Bool.and_eq_true] at ha
      obtain ⟨hold, hrest⟩ := ha
      by_cases hk : k = tag
      · subst hk
        cases old with
        | Scalar s =>
            simp [merge_child, entriesKeysOK, decodedKeysOK, itemsKeysOK, hold, hv, hrest]
        | Fields fs =>
            simp [merge_child, entriesKeysOK, decodedKeysOK, itemsKeysOK, hold, hv, hrest]
        | Sequence xs =>
            have : decodedKeysOK (.Sequence (xs ++ [v])) = true := by
              simp only [decodedKeysOK] at hold ⊢
              simp [itemsKeysOK_append, hold, hv]
            simp [merge_child, entriesKeysOK, this, hrest]
      · simp [merge_child, hk, entriesKeysOK, hold, ih hrest]

mutual

theorem element_to_data_keysOK : (e : Elem) → decodedKeysOK (element_to_data e) = true
  | .mk t text [] => by simp [element_to_data, decodedKeysOK]
  | .mk t text (c :: cs) => by
      rw [show element_to_data (.mk t text (c :: cs)) = .Fields (fold_children [] (c :: cs))
        from by simp [element_to_data]]
      have h := fold_children_keysOK (c :: cs) [] (by simp) (by simp [entriesKeysOK])
      simp only [decodedKeysOK, Bool.and_eq_true, decide_eq_true_eq]
      exact ⟨h.1, h.2⟩
termination_by e => sizeOf e
decreasing_by all_goals (simp_wf; try omega)

theorem fold_children_keysOK : (cs : List Elem) → (acc : List (String × JValue)) →
    (acc.map Prod.fst).Nodup → entriesKeysOK acc = true →
    ((fold_children acc cs).map Prod.fst).Nodup ∧ entriesKeysOK (fold_children acc cs) = true
  | [], acc, h1, h2 => by
      rw [show fold_children acc [] = acc from by simp [fold_children]]
      exact ⟨h1, h2⟩
  | c :: rest, acc, h1, h2 => by
      rw [show fold_children acc (c :: rest)
          = fold_children (merge_child acc c.tag (element_to_data c)) rest from by
        simp [fold_children]]
      exact fold_children_keysOK rest _ (merge_child_nodup _ _ _ h1)
        (merge_child_entriesKeysOK _ _ _ h2 (element_to_data_keysOK c))
termination_by cs _ _ _ => sizeOf cs
decreasing_by all_goals (simp_wf; try omega)

end

/-- Claim C2: every `Fields` value produced by markup decode has
pairwise-distinct keys, and repeated sibling tags are merged as described:
the second occurrence of a tag promotes the existing (non-list) value to a
two-element `Sequence`, and a tag whose entry already holds a `Sequence`
gets later occurrences appended to it. -/
theorem decode_fields_keys_unique :
    (∀ e : Elem, decodedKeysOK (element_to_data e) = true) ∧
    (∀ (pre post : List (String × JValue)) (tag : String) (old v : JValue),
      tag ∉ pre.map Prod.fst → (∀ xs, old ≠ .Sequence xs) →
      merge_child (pre ++ (tag, old) :: post) tag v =
        pre ++ (tag, .Sequence [old, v]) :: post) ∧
    (∀ (pre post : List (String × JValue)) (tag : String) (xs : List JValue) (v : JValue),
      tag ∉ pre.map Prod.fst →
      merge_child (pre ++ (tag, .Sequence xs) :: post) tag v =
        pre ++ (tag, .Sequence (xs ++ [v])) :: post) :=
  ⟨element_to_data_keysOK,
   fun pre post tag old v h1 h2 => merge_child_promote pre post tag old v h1 h2,
   fun pre post tag xs v h1 => merge_child_append_seq pre post tag xs v h1⟩

/-- Witness for `decode_fields_keys_unique`: decoding an element with three
same-tag children, and the two merge steps that build its list. -/
theorem decode_fields_keys_unique_witness :
    decodedKeysOK (element_to_data
      (.mk "r" "" [.mk "a" "1" [], .mk "a" "2" [], .mk "a" "3" []])) = true ∧
    merge_child [("a", .Scalar "1")] "a" (.Scalar "2")
      = [("a", .Sequence [.Scalar "1", .Scalar "2"])] ∧
    merge_child [("a", .Sequence [.Scalar "1", .Scalar "2"])] "a" (.Scalar "3")
      = [("a", .Sequence [.Scalar "1", .Scalar "2", .Scalar "3"])] := by
  refine ⟨decode_fields_keys_unique.1 _, ?_, ?_⟩
  · have := decode_fields_keys_unique.2.1 [] [] "a" (.Scalar "1") (.Scalar "2")
      (by simp) (fun xs h => by cases h)
    simpa using this
  · have := decode_fields_keys_unique.2.2 [] [] "a" [.Scalar "1", .Scalar "2"] (.Scalar "3")
      (by simp)
    simpa using this

/-- Claim C5 counterexample: the markup-to-markup pipeline returns its input
bytes unchanged — here on a malformed markup payload, which the claim says
must fail with a parse error, and on a well-formed but non-pretty-printed
payload, which the claim says must be re-encoded; neither happens, the
pipeline never decodes at all. -/
theorem xml_to_xml_no_reencode_cex :
    convert_xml_to_xml "<unclosed" = "<unclosed" ∧
    convert_xml_to_xml "<a><b>x</b></a>" = "<a><b>x</b></a>" :=
  ⟨rfl, rfl⟩

/-- Claim C5 (amended): the markup-to-markup pipeline copies the input text
verbatim for every input (`output_path.write_text` of the exact
`input_path.read_text` payload); it performs no decode and no re-encode, so
malformed markup is copied unchanged instead of failing with a parse
error. -/
theorem xml_to_xml_copies_verbatim (payload : String) :
    convert_xml_to_xml payload = payload :=
  rfl

/-- Claim C8: encoding a `Sequence` met directly as element content emits
exactly one child element per item, and every one of those children carries
the enclosing parent element's own tag (the self-repetition rule). -/
theorem sequence_self_repetition (tag : String) (items : List JValue) :
    (populate_xml tag (.Sequence items)).children = items.map (populate_xml tag) ∧
    (populate_xml tag (.Sequence items)).children.map Elem.tag =
      items.map (fun _ => tag) := by
  have hch : (populate_xml tag (.Sequence items)).children = items.map (populate_xml tag) := by
    rw [show populate_xml tag (.Sequence items) = .mk tag "" (populate_items tag items) from by
      simp [populate_xml]]
    simp [Elem.children, populate_items_eq_map]
  refine ⟨hch, ?_⟩
  rw [hch, List.map_map]
  exact List.map_congr_left fun v _ => populate_xml_tag tag v

/-! ### Helper lemmas about row extraction -/

theorem ensure_list_of_dicts_some {xs rows : List JValue}
    (h : ensure_list_of_dicts xs = some rows) :
    rows = xs ∧ xs ≠ [] ∧ xs.all isDict = true := by
  unfold ensure_list_of_dicts at h
  split_ifs at h with h1 h2
  cases h
  exact ⟨rfl, by simpa [List.isEmpty_iff] using h2, h1⟩

theorem ensure_list_of_dicts_none_of_bad {xs : List JValue} {x : JValue}
    (hx : x ∈ xs) (hd : isDict x = false) : ensure_list_of_dicts xs = none := by
  unfold ensure_list_of_dicts
  have : xs.all isDict = false := by
    rw [List.all_eq_false]
    exact ⟨x, hx, by simp [hd]⟩
  simp [this]

mutual

theorem find_first_eq_preorder : (v : JValue) →
    find_first_row_list v = (preorderSeqs v).findSome? ensure_list_of_dicts
  | .Scalar s => by
      simp [find_first_row_list, preorderSeqs]
  | .Sequence items => by
      rw [show find_first_row_list (.Sequence items) = ensure_list_of_dicts items from by
        simp [find_first_row_list]]
      rw [show preorderSeqs (.Sequence items) = [items] from by simp [preorderSeqs]]
      rw [List.findSome?_cons]
      cases ensure_list_of_dicts items <;> simp
  | .Fields es => by
      rw [show find_first_row_list (.Fields es) = find_in_entries es from by
        simp [find_first_row_list]]
      rw [show preorderSeqs (.Fields es) = preorderSeqsEntries es from by simp [preorderSeqs]]
      exact find_in_entries_eq es
termination_by v => sizeOf v
decreasing_by all_goals (simp_wf; try omega)

theorem find_in_entries_eq : (es : List (String × JValue)) →
    find_in_entries es = (preorderSeqsEntries es).findSome? ensure_list_of_dicts
  | [] => by simp [find_in_entries, preorderSeqsEntries]
  | (k, v) :: rest => by
      rw [show preorderSeqsEntries ((k, v) :: rest)
          = preorderSeqs v ++ preorderSeqsEntries rest from by simp [preorderSeqsEntries]]
      rw [List.findSome?_append, ← find_first_eq_preorder v, ← find_in_entries_eq rest]
      cases hv : find_first_row_list v with
      | some rows => simp [find_in_entries, hv, Option.or]
      | none => simp [find_in_entries, hv, Option.or]
termination_by es => sizeOf es
decreasing_by all_goals (simp_wf; try omega)

end

theorem findSome?_ensure_ne_nil (L : List (List JValue)) (rows : List JValue)
    (h : L.findSome? ensure_list_of_dicts = some rows) : rows ≠ [] := by
  induction L with
  | nil => simp at h
  | cons xs rest ih =>
      rw [List.findSome?_cons] at h
      cases hx : ensure_list_of_dicts xs with
      | some r =>
          rw [hx] at h
          cases h
          obtain ⟨hr, hne, _⟩ := ensure_list_of_dicts_some hx
          exact hr ▸ hne
      | none =>
          rw [hx] at h
          exact ih h

theorem find_first_some_ne_nil {v : JValue} {rows : List JValue}
    (h : find_first_row_list v = some rows) : rows ≠ [] :=
  findSome?_ensure_ne_nil _ _ ((find_first_eq_preorder v).symm.trans h)

theorem follow_some_ne_nil {data : JValue} {p : String} {rows : List JValue}
    (h : follow_row_path data p = some rows) : rows ≠ [] := by
  unfold follow_row_path at h
  split at h
  · obtain ⟨hr, hne, _⟩ := ensure_list_of_dicts_some h
    exact hr ▸ hne
  · obtain ⟨hr, hne, _⟩ := ensure_list_of_dicts_some h
    exact hr ▸ hne
  · cases h
  · cases h

theorem locate_rows_some_ne_nil {data : JValue} {rp : Option String} {rows : List JValue}
    (h : locate_rows data rp = some rows) : rows ≠ [] := by
  match rp with
  | none =>
      simp only [locate_rows] at h
      exact find_first_some_ne_nil h
  | some p =>
      simp only [locate_rows] at h
      by_cases hp : p = ""
      · rw [if_pos hp] at h
        exact find_first_some_ne_nil h
      · rw [if_neg hp] at h
        exact follow_some_ne_nil h

theorem locate_ok {data : JValue} {rp : Option String} {rows : List JValue}
    (h : convert_xml_to_csv_locate data rp = .ok rows) : locate_rows data rp = some rows := by
  unfold convert_xml_to_csv_locate at h
  split at h
  · cases h; assumption
  · cases h

/-- Claim C3: the heuristic row search returns exactly the first `Sequence`
of the depth-first pre-order traversal that is non-empty and all of whose
items are `Fields` (`preorderSeqs` lists the sequences the traversal
inspects, in order — per the specification, a rejected sequence's own
children are skipped and the search continues past them); on the value
`{"a": {"b": 1}, "rows": [{"x": 1}, {"x": 2}]}` it returns the `rows`
sequence; and when no sequence anywhere validates, the conversion fails with
the unable-to-locate-rows error (the spec's `RowsNotFound`). -/
theorem heuristic_row_search_spec :
    (∀ v : JValue, find_first_row_list v = (preorderSeqs v).findSome? ensure_list_of_dicts) ∧
    find_first_row_list (.Fields [("a", .Fields [("b", .Scalar "1")]),
        ("rows", .Sequence [.Fields [("x", .Scalar "1")], .Fields [("x", .Scalar "2")]])])
      = some [.Fields [("x", .Scalar "1")], .Fields [("x", .Scalar "2")]] ∧
    (∀ data : JValue, (preorderSeqs data).findSome? ensure_list_of_dicts = none →
      convert_xml_to_csv_locate data none = .error unableToLocateMsg) := by
  refine ⟨find_first_eq_preorder, ?_, ?_⟩
  · simp [find_first_row_list, find_in_entries, ensure_list_of_dicts, isDict]
  · intro data h
    have hnone : find_first_row_list data = none := (find_first_eq_preorder data).trans h
    simp [convert_xml_to_csv_locate, locate_rows, hnone]

/-- Witness for `heuristic_row_search_spec` on a value containing no
sequence at all. -/
theorem heuristic_row_search_spec_witness :
    convert_xml_to_csv_locate (.Fields [("a", .Scalar "1")]) none
      = .error unableToLocateMsg := by
  apply heuristic_row_search_spec.2.2
  simp [preorderSeqs, preorderSeqsEntries]

/-- Claim C4 counterexample: the failure raised for an explicit path whose
terminal sequence contains a non-`Fields` item is the very same error —
same `ValueError`, same message — as the failure raised when no rows exist
at all, so it is not "a failure distinct from the RowsNotFound case". -/
theorem row_shape_error_not_distinct_cex :
    convert_xml_to_csv_locate
        (.Fields [("k", .Sequence [.Fields [("a", .Scalar "1")], .Scalar "bad"])])
        (some "k") = .error unableToLocateMsg ∧
    convert_xml_to_csv_locate (.Fields [("z", .Scalar "1")]) none
      = .error unableToLocateMsg := by
  constructor
  · simp [convert_xml_to_csv_locate, locate_rows, follow_row_path, walk_path, lookupKey,
      pySplitDot, splitDotChars, ensure_list_of_dicts, isDict]
  · simp [convert_xml_to_csv_locate, locate_rows, find_first_row_list, find_in_entries,
      ensure_list_of_dicts, isDict]

/-- Claim C4 (amended): row extraction with an explicit dotted path whose
terminal value is a `Sequence` containing a non-`Fields` item fails — with
the same undifferentiated unable-to-locate-rows `ValueError` the heuristic
not-found case raises, the code not distinguishing the spec's
`RowShapeError` from its `RowsNotFound` — and it never returns a subset:
whenever path extraction succeeds on a `Sequence` terminal it returns
exactly the terminal's items. -/
theorem row_path_shape_failure :
    (∀ (data : JValue) (p : String) (items : List JValue) (x : JValue),
      p ≠ "" → walk_path data (pySplitDot p) = some (.Sequence items) →
      x ∈ items → isDict x = false →
      convert_xml_to_csv_locate data (some p) = .error unableToLocateMsg) ∧
    (∀ (data : JValue) (p : String) (items rows : List JValue),
      walk_path data (pySplitDot p) = some (.Sequence items) →
      follow_row_path data p = some rows → rows = items) := by
  constructor
  · intro data p items x hp hwalk hx hdict
    have hfollow : follow_row_path data p = none := by
      unfold follow_row_path
      rw [hwalk]
      exact ensure_list_of_dicts_none_of_bad hx hdict
    simp [convert_xml_to_csv_locate, locate_rows, hp, hfollow]
  · intro data p items rows hwalk hfollow
    unfold follow_row_path at hfollow
    rw [hwalk] at hfollow
    exact (ensure_list_of_dicts_some hfollow).1

/-- Witness for `row_path_shape_failure`: path `"k"` resolves to a sequence
holding one `Fields` and one scalar, and the extraction fails whole; on an
all-`Fields` terminal the extraction returns exactly the items. -/
theorem row_path_shape_failure_witness :
    convert_xml_to_csv_locate
        (.Fields [("k", .Sequence [.Fields [("a", .Scalar "1")], .Scalar "bad"])])
        (some "k") = .error unableToLocateMsg ∧
    ([.Fields [("a", .Scalar "1")], .Fields [("a", .Scalar "2")]] : List JValue)
      = [.Fields [("a", .Scalar "1")], .Fields [("a", .Scalar "2")]] := by
  constructor
  · exact row_path_shape_failure.1
      (.Fields [("k", .Sequence [.Fields [("a", .Scalar "1")], .Scalar "bad"])]) "k"
      [.Fields [("a", .Scalar "1")], .Scalar "bad"] (.Scalar "bad")
      (by simp)
      (by simp [walk_path, lookupKey, pySplitDot, splitDotChars])
      (by simp) (by simp [isDict])
  · exact row_path_shape_failure.2
      (.Fields [("k", .Sequence [.Fields [("a", .Scalar "1")], .Fields [("a", .Scalar "2")]])])
      "k" [.Fields [("a", .Scalar "1")], .Fields [("a", .Scalar "2")]] _
      (by simp [walk_path, lookupKey, pySplitDot, splitDotChars])
      (by simp [follow_row_path, walk_path, lookupKey, pySplitDot, splitDotChars,
        ensure_list_of_dicts, isDict])

/-- Claim C10: an empty candidate sequence is rejected by the validator
(`_ensure_list_of_dicts` returns `None` on the empty collection), and the
hierarchical-to-tabular conversion never succeeds with an empty row set,
whether the candidate came from an explicit path or from heuristic search. -/
theorem no_empty_row_extraction :
    ensure_list_of_dicts [] = none ∧
    (∀ (data : JValue) (rp : Option String) (rows : List JValue),
      convert_xml_to_csv_locate data rp = .ok rows → rows ≠ []) := by
  constructor
  · simp [ensure_list_of_dicts]
  · intro data rp rows h
    exact locate_rows_some_ne_nil (locate_ok h)

/-- Witness for `no_empty_row_extraction` on a value whose extraction
succeeds with one row. -/
theorem no_empty_row_extraction_witness :
    ([JValue.Fields [("x", .Scalar "1")]] : List JValue) ≠ [] :=
  no_empty_row_extraction.2 (.Fields [("rows", .Sequence [.Fields [("x", .Scalar "1")]])])
    none [.Fields [("x", .Scalar "1")]]
    (by simp [convert_xml_to_csv_locate, locate_rows, find_first_row_list, find_in_entries,
      ensure_list_of_dicts, isDict])

/-! ### Helper lemmas about the tabular codec -/

theorem keyfold_all_mem (row : List (String × String)) (acc : List String)
    (h : ∀ kv ∈ row, kv.1 ∈ acc) :
    row.foldl (fun a kv => if kv.1 ∈ a then a else a ++ [kv.1]) acc = acc := by
  induction row generalizing acc with
  | nil => simp
  | cons kv rest ih =>
      rw [List.foldl_cons, if_pos (h kv (by simp))]
      exact ih acc fun kv' h' => h kv' (by simp [h'])

theorem keyfold_all_new (row : List (String × String)) (acc : List String)
    (hnd : (row.map Prod.fst).Nodup) (h : ∀ kv ∈ row, kv.1 ∉ acc) :
    row.foldl (fun a kv => if kv.1 ∈ a then a else a ++ [kv.1]) acc
      = acc ++ row.map Prod.fst := by
  induction row generalizing acc with
  | nil => simp
  | cons kv rest ih =>
      simp only [List.map_cons, List.nodup_cons] at hnd
      rw [List.foldl_cons, if_neg (h kv (by simp))]
      rw [ih (acc ++ [kv.1]) hnd.2 ?hnew]
      · simp
      case hnew =>
        intro kv' h'
        simp only [List.mem_append, List.mem_singleton, not_or]
        exact ⟨h kv' (by simp [h']), fun he => hnd.1 (he ▸ List.mem_map_of_mem Prod.fst h')⟩

theorem rowsfold_all_mem (rows : List (List (String × String))) (acc : List String)
    (h : ∀ r ∈ rows, ∀ kv ∈ r, kv.1 ∈ acc) :
    rows.foldl (fun a row => row.foldl (fun a' kv => if kv.1 ∈ a' then a' else a' ++ [kv.1]) a)
      acc = acc := by
  induction rows with
  | nil => simp
  | cons r rest ih =>
      rw [List.foldl_cons, keyfold_all_mem r acc (h r (by simp))]
      exact ih fun r' h' => h r' (by simp [h'])

theorem lookup_zip_self (header row : List String) (hnd : header.Nodup)
    (hlen : row.length = header.length) :
    header.map (fun k => (lookupStr (header.zip row) k).getD "") = row := by
  induction header generalizing row with
  | nil =>
      cases row with
      | nil => simp
      | cons v vs => simp at hlen
  | cons h hs ih =>
      cases row with
      | nil => simp at hlen
      | cons v vs =>
          simp only [List.nodup_cons] at hnd
          simp only [List.length_cons, Nat.succ.injEq] at hlen
          rw [List.zip_cons_cons, List.map_cons]
          congr 1
          · simp [lookupStr]
          · rw [show hs.map (fun k => (lookupStr ((h, v) :: hs.zip vs) k).getD "")
                = hs.map (fun k => (lookupStr (hs.zip vs) k).getD "") from
              List.map_congr_left fun k hk => by
                have : h ≠ k := fun he => hnd.1 (he ▸ hk)
                simp [lookupStr, this]]
            exact ih vs hnd.2 hlen

/-- Claim C6 counterexample: a well-formed tabular input consisting of only a
header row (zero data rows — valid per the spec, which has the codec log a
warning) does not round-trip: `csv.DictReader` never exposes the header when
there are no rows, so re-encoding emits an empty header, not `a,b`. -/
theorem csv_round_trip_zero_rows_cex :
    write_csv (read_csv_rows [["a", "b"]]) ≠ [["a", "b"]] := by
  simp [read_csv_rows, write_csv, collect_fieldnames]

/-- Claim C6 (amended): for every well-formed delimited input with a header
row of pairwise-distinct names, at least one data row, and every data row of
the header's width, decoding and re-encoding with the same delimiter
reproduces the header and all data rows verbatim, in header order. -/
theorem csv_round_trip (header : List String) (data : List (List String))
    (hne : data ≠ []) (hnodup : header.Nodup)
    (hlen : ∀ row ∈ data, row.length = header.length) :
    write_csv (read_csv_rows (header :: data)) = header :: data := by
  obtain ⟨r0, rest, rfl⟩ : ∃ r0 rest, data = r0 :: rest := by
    cases data with
    | nil => exact absurd rfl hne
    | cons a b => exact ⟨a, b, rfl⟩
  rw [show read_csv_rows (header :: r0 :: rest)
      = (r0 :: rest).map (fun row => header.zip row) from by simp [read_csv_rows]]
  have hkeys : ∀ row ∈ r0 :: rest, (header.zip row).map Prod.fst = header := by
    intro row hr
    exact List.map_fst_zip header row (le_of_eq (hlen row hr).symm)
  have hcollect : collect_fieldnames ((r0 :: rest).map (fun row => header.zip row))
      = header := by
    unfold collect_fieldnames
    rw [List.map_cons, List.foldl_cons]
    have h0 : (header.zip r0).foldl (fun a kv => if kv.1 ∈ a then a else a ++ [kv.1]) []
        = header := by
      have hnd0 : ((header.zip r0).map Prod.fst).Nodup := by
        rw [hkeys r0 (by simp)]; exact hnodup
      rw [keyfold_all_new (header.zip r0) [] hnd0 (by simp), hkeys r0 (by simp)]
      simp
    rw [h0]
    apply rowsfold_all_mem
    intro r' hr' kv hkv
    obtain ⟨row, hrow, rfl⟩ := List.mem_map.mp hr'
    have hmem : kv.1 ∈ (header.zip row).map Prod.fst := List.mem_map_of_mem Prod.fst hkv
    rwa [hkeys row (by simp [hrow])] at hmem
  unfold write_csv
  rw [hcollect]
  congr 1
  rw [List.map_map]
  have : ∀ row ∈ r0 :: rest,
      header.map (fun key => (lookupStr (header.zip row) key).getD "") = row := by
    intro row hr
    exact lookup_zip_self header row hnodup (hlen row hr)
  calc ((r0 :: rest).map
        ((fun row => header.map fun key => (lookupStr row key).getD "") ∘
          fun row => header.zip row))
      = (r0 :: rest).map (fun row => row) :=
        List.map_congr_left fun row hr => by simpa using this row hr
    _ = r0 :: rest := by simp

/-- Witness for `csv_round_trip` on a two-column, two-row table. -/
theorem csv_round_trip_witness :
    write_csv (read_csv_rows [["name", "age"], ["Alice", "30"], ["Bob", "25"]])
      = [["name", "age"], ["Alice", "30"], ["Bob", "25"]] :=
  csv_round_trip ["name", "age"] [["Alice", "30"], ["Bob", "25"]]
    (by simp) (by simp)
    (by intro row hr; simp only [List.mem_cons, List.mem_singleton] at hr
        rcases hr with h | h | h <;> simp_all)

theorem keyfold_eq_firstSeen (ks : List String) (acc : List String) :
    ks.foldl (fun a k => if k ∈ a then a else a ++ [k]) acc
      = acc ++ (firstSeen ks).filter (fun x => x ∉ acc) := by
  induction ks generalizing acc with
  | nil => simp [firstSeen]
  | cons k rest ih =>
      rw [show firstSeen (k :: rest) = k :: (firstSeen rest).filter (fun x => x ≠ k) from by
        simp [firstSeen]]
      by_cases hk : k ∈ acc
      · rw [List.foldl_cons, if_pos hk, ih acc]
        congr 1
        rw [List.filter_cons]
        have hd : (decide (k ∉ acc)) = false := by simp [hk]
        rw [hd]
        simp only [Bool.false_eq_true, if_false]
        rw [List.filter_filter]
        apply List.filter_congr
        intro x hx
        by_cases hxa : x ∈ acc
        · simp [hxa]
        · have hxk : x ≠ k := fun he => hxa (he ▸ hk)
          simp [hxa, hxk]
      · rw [List.foldl_cons, if_neg hk, ih (acc ++ [k])]
        rw [List.filter_cons]
        have hd : (decide (k ∉ acc)) = true := by simp [hk]
        rw [hd]
        simp only [if_true]
        rw [List.filter_filter, List.append_assoc, List.singleton_append]
        congr 2
        apply List.filter_congr
        intro x hx
        by_cases h1 : x ∈ acc
        · simp [h1]
        · by_cases h2 : x = k <;> simp [h1, h2]

/-- Claim C7: the header emitted by the tabular encoder is the key stream of
all rows deduplicated in first-seen order (`firstSeen`, written from the
spec's words), and on the disjoint-key rows `[{"a": "1"}, {"b": "2"}]` the
encoder produces header `a,b` and rows `1,` and `,2`. -/
theorem fieldnames_first_seen_union :
    (∀ rows : List (List (String × String)),
      collect_fieldnames rows
        = firstSeen ((rows.map (fun row => row.map Prod.fst)).flatten)) ∧
    write_csv [[("a", "1")], [("b", "2")]] = [["a", "b"], ["1", ""], ["", "2"]] := by
  constructor
  · intro rows
    unfold collect_fieldnames
    calc rows.foldl
          (fun acc row => row.foldl (fun a kv => if kv.1 ∈ a then a else a ++ [kv.1]) acc) []
        = rows.foldl
            (fun acc row =>
              (row.map Prod.fst).foldl (fun a k => if k ∈ a then a else a ++ [k]) acc) [] := by
          congr 1
          funext acc row
          rw [List.foldl_map]
      _ = (rows.map (fun row => row.map Prod.fst)).foldl
            (fun acc ks => ks.foldl (fun a k => if k ∈ a then a else a ++ [k]) acc) [] := by
          rw [List.foldl_map]
      _ = ((rows.map (fun row => row.map Prod.fst)).flatten).foldl
            (fun a k => if k ∈ a then a else a ++ [k]) [] := by
          rw [List.foldl_flatten]
      _ = firstSeen ((rows.map (fun row => row.map Prod.fst)).flatten) := by
          rw [keyfold_eq_firstSeen]
          simp
  · decide

/-- Claim C9: for a pair of compared documents whose canonicalized renderings
are textually identical the differ emits exactly the one "no differences"
line (`compare_pair` is the loop body for one adjacent pair), and comparing a
file against itself yields exactly that single line as the whole output.
`udiff` abstracts `difflib.unified_diff`, whose documented behaviour on equal
line lists is the empty diff. -/
theorem identical_pair_no_differences :
    ∀ udiff : List String → List String → List String,
      (∀ x, udiff x x = []) →
      (∀ (a b : String) (r : List String), compare_pair udiff a b r r = [noDiffLine a b]) ∧
      (∀ (na nb : String) (r : List String),
        compare_json_files udiff [(na, r), (nb, r)] = .ok [noDiffLine na nb]) := by
  intro udiff hud
  constructor
  · intro a b r
    simp [compare_pair, hud]
  · intro na nb r
    simp [compare_json_files, compare_chain, compare_pair, hud]

/-- Witness for `identical_pair_no_differences` with a concrete diff
function and a file compared against itself. -/
theorem identical_pair_no_differences_witness :
    compare_json_files (fun a b => if a == b then [] else ["@@ -1 +1 @@"])
      [("f1", ["line"]), ("f2", ["line"])] = .ok [noDiffLine "f1" "f2"] :=
  (identical_pair_no_differences (fun a b => if a == b then [] else ["@@ -1 +1 @@"])
    (fun x => by simp)).2 "f1" "f2" ["line"]
